import Mathlib

/-!
Verification of the VoiceBox semantic retrieval engine and its browser client.

The retrieval engine (`modules/vector_rag_handler.py`) is documented in the
repository's implementation summary and in the specification; its Python source
is not part of this tree, so the engine is modelled here from the spec, with
document text represented as a list of characters and floating-point vectors
represented over the rationals.  The WebSocket client (`voiceboxApi.js`,
`App.jsx`) is embedded from its JavaScript source.
-/

namespace VoiceBox

/-- Document text is modelled as a list of characters. -/
abbrev Text := List Char

/-- Modelled from the spec: sentence boundaries are punctuation characters
(`modules/vector_rag_handler.py` is absent from the tree; §4.1 "split into
sentences using punctuation boundaries"). -/
def isSentenceEnd (c : Char) : Bool :=
  c = '.' || c = '!' || c = '?'

/-- Modelled from the spec: accumulator-based sentence splitter.  A sentence
is a maximal run of characters ending at a punctuation boundary; trailing
text without punctuation forms a final sentence. -/
def splitSentencesAux : Text → Text → List Text
  | [], acc => if acc.isEmpty then [] else [acc.reverse]
  | c :: cs, acc =>
      if isSentenceEnd c then (acc.reverse ++ [c]) :: splitSentencesAux cs []
      else splitSentencesAux cs (c :: acc)

/-- Modelled from the spec: split a section's text into sentences at
punctuation boundaries (§4.1). -/
def splitSentences (t : Text) : List Text :=
  splitSentencesAux t []

/-- The trailing `n` characters of a list (the chunk-overlap region). -/
def takeLast (n : Nat) (l : Text) : Text :=
  l.drop (l.length - n)

/-- Modelled from the spec: a chunk of document text with section metadata
(§3 Data model; `modules/vector_rag_handler.py` is absent from the tree). -/
structure Chunk where
  id : Nat
  text : Text
  sectionName : Text
  startOffset : Nat
  endOffset : Nat
deriving DecidableEq

/-- Modelled from the spec: greedy sentence accumulation within one section
(§4.1).  `acc` is the text of the chunk being built, `aStart` its start
offset in the document.  When adding the next sentence would exceed the
target size `t`, the chunk is closed and the next chunk begins with the
trailing `ov` characters of the closed chunk, provided the overlap plus the
sentence still fits the target (the spec's chunk-size invariant takes
priority over overlap); a sentence longer than `t` becomes its own chunk
unsplit. -/
def chunkSection (t ov : Nat) (name : Text) : List Text → Text → Nat → List Chunk
  | [], acc, aStart =>
      if acc.isEmpty then [] else [⟨0, acc, name, aStart, aStart + acc.length⟩]
  | s :: ss, acc, aStart =>
      if acc.isEmpty then chunkSection t ov name ss s aStart
      else if acc.length + s.length ≤ t then chunkSection t ov name ss (acc ++ s) aStart
      else
        ⟨0, acc, name, aStart, aStart + acc.length⟩ ::
          (if (takeLast ov acc).length + s.length ≤ t then
            chunkSection t ov name ss (takeLast ov acc ++ s)
              (aStart + acc.length - (takeLast ov acc).length)
          else chunkSection t ov name ss s (aStart + acc.length))

/-- Modelled from the spec: split the document at section markers, keeping
each section's name, start offset and text; text before the first marker is
an unnamed preamble section (§4.1). -/
def sectionsFrom (doc : Text) : Nat → Text → List (Text × Nat) → List (Text × Nat × Text)
  | pos, curName, [] => [(curName, pos, doc.drop pos)]
  | pos, curName, (name, off) :: rest =>
      (curName, pos, (doc.drop pos).take (off - pos)) :: sectionsFrom doc off name rest

/-- Modelled from the spec: the sections of a document; with no markers the
whole document is one section (§4.1 edge case). -/
def sections (doc : Text) (markers : List (Text × Nat)) : List (Text × Nat × Text) :=
  sectionsFrom doc 0 [] markers

/-- Chunk ids are assigned in generation order (§3: ids are stable for the
lifetime of one index build). -/
def assignIds : Nat → List Chunk → List Chunk
  | _, [] => []
  | n, c :: cs => { c with id := n } :: assignIds (n + 1) cs

/-- Modelled from the spec: the Chunker contract
`chunk(document, sectionMarkers, targetSize, overlap)` (§4.1). -/
def chunkDoc (doc : Text) (markers : List (Text × Nat)) (t ov : Nat) : List Chunk :=
  assignIds 0
    (((sections doc markers).map
      (fun sec => chunkSection t ov sec.1 (splitSentences sec.2.2) [] sec.2.1)).flatten)

/-- The document span `[startOffset, endOffset)` of a chunk. -/
def spanChars (doc : Text) (c : Chunk) : Text :=
  (doc.drop c.startOffset).take (c.endOffset - c.startOffset)

/-- Concatenate the chunks' document spans, dropping from each chunk the
part of its span that lies before position `pos` (the overlap already
contributed by the previous chunk). -/
def coverFrom (doc : Text) : Nat → List Chunk → Text
  | _, [] => []
  | pos, c :: rest => (spanChars doc c).drop (pos - c.startOffset) ++ coverFrom doc c.endOffset rest

/-- The end offset of the last chunk in a list, or `pos` if the list is
empty. -/
def lastEnd : Nat → List Chunk → Nat
  | pos, [] => pos
  | _, c :: rest => lastEnd c.endOffset rest

/-- Modelled from the spec: a chunk together with its embedding vector;
floating-point vectors are modelled over the rationals and L2 normalization
(a floating-point operation) is treated as performed inside the opaque
Embedding Provider, which returns unit-normalized vectors (§3, §6). -/
structure EmbeddedChunk where
  chunk : Chunk
  vector : List ℚ
deriving DecidableEq

/-- Inner product of two vectors (cosine similarity of normalized vectors,
§4.2). -/
def dot (a b : List ℚ) : ℚ :=
  (List.zipWith (· * ·) a b).sum

/-- Modelled from the spec: a chunk with its per-query similarity score
(§3). -/
structure ScoredChunk where
  chunk : Chunk
  score : ℚ
deriving DecidableEq

/-- Modelled from the spec: the deterministic ranking order — descending by
score, ties broken by ascending chunk id (§4.2). -/
def scoreOrder (a b : ScoredChunk) : Prop :=
  b.score < a.score ∨ (b.score = a.score ∧ a.chunk.id ≤ b.chunk.id)

instance : DecidableRel scoreOrder := fun a b => by
  unfold scoreOrder; infer_instance

instance : IsTotal ScoredChunk scoreOrder := by
  constructor
  intro a b
  rcases lt_trichotomy a.score b.score with h | h | h
  · exact Or.inr (Or.inl h)
  · rcases Nat.le_total a.chunk.id b.chunk.id with hid | hid
    · exact Or.inl (Or.inr ⟨h.symm, hid⟩)
    · exact Or.inr (Or.inr ⟨h, hid⟩)
  · exact Or.inl (Or.inl h)

instance : IsTrans ScoredChunk scoreOrder := by
  constructor
  intro a b c hab hbc
  rcases hab with hab | ⟨hab, hab'⟩
  · rcases hbc with hbc | ⟨hbc, _⟩
    · exact Or.inl (hbc.trans hab)
    · exact Or.inl (hbc ▸ hab)
  · rcases hbc with hbc | ⟨hbc, hbc'⟩
    · exact Or.inl (hab ▸ hbc)
    · exact Or.inr ⟨hbc.trans hab, hab'.trans hbc'⟩

/-- Modelled from the spec: Vector Index build — obtain each chunk's vector
from the Embedding Provider, validating the dimension; the whole build
fails (no partial index) if the provider errors or returns a vector of the
wrong dimension for any chunk (§4.2). -/
def buildIndex (provider : Text → Option (List ℚ)) (dim : Nat) (chunks : List Chunk) :
    Option (List EmbeddedChunk) :=
  chunks.mapM fun c =>
    match provider c.text with
    | none => none
    | some v => if v.length = dim then some ⟨c, v⟩ else none

/-- Modelled from the spec: Vector Index exact search — score every stored
vector by inner product with the query vector, sort descending by score
with ties broken by ascending chunk id, and return the top `k` (§4.2). -/
def searchIndex (idx : List EmbeddedChunk) (qv : List ℚ) (k : Nat) : List ScoredChunk :=
  (List.insertionSort scoreOrder (idx.map fun ec => ⟨ec.chunk, dot qv ec.vector⟩)).take k

/-- Modelled from the spec: lowercase word tokenizer — maximal runs of
alphanumeric characters, lowercased (§4.3). -/
def wordTokensAux : Text → Text → List Text
  | [], acc => if acc.isEmpty then [] else [acc.reverse]
  | c :: cs, acc =>
      if c.isAlphanum then wordTokensAux cs (c.toLower :: acc)
      else if acc.isEmpty then wordTokensAux cs []
      else acc.reverse :: wordTokensAux cs []

/-- Modelled from the spec: tokenize text into lowercase word tokens
(§4.3). -/
def wordTokens (t : Text) : List Text :=
  wordTokensAux t []

/-- Modelled from the spec: lexical score of a chunk — the count of
distinct query tokens the chunk contains, normalized to `[0,1]` by the
distinct query token count (§4.3). -/
def lexScore (q : Text) (c : Chunk) : ℚ :=
  let qts := (wordTokens q).dedup
  let cts := wordTokens c.text
  if qts.length = 0 then 0
  else ((qts.filter (fun tk => decide (tk ∈ cts))).length : ℚ) / (qts.length : ℚ)

/-- Modelled from the spec: the Lexical Fallback Matcher — keep chunks with
positive keyword overlap, rank by score with ascending-id tie-break, return
the top `k`; absence of matches yields an empty result and this path never
fails (§4.3, §8). -/
def lexicalSearch (q : Text) (chunks : List Chunk) (k : Nat) : List ScoredChunk :=
  (List.insertionSort scoreOrder
    ((chunks.map fun c => ⟨c, lexScore q c⟩).filter fun sc => decide (0 < sc.score))).take k

/-- Modelled from the spec: the strategy that produced a retrieval result
(§3, §9). -/
inductive Strategy
  | vector
  | lexical
deriving DecidableEq

/-- Modelled from the spec: an ordered, filtered retrieval result plus the
strategy flag (§3). -/
structure RetrievalResult where
  chunks : List ScoredChunk
  strategy : Strategy
deriving DecidableEq

/-- Modelled from the spec: the recognized configuration options used by
the pipeline; defaults mirror `config/config.py` (`RAG_TOP_K = 3`,
`RAG_SCORE_THRESHOLD = 0.7`, `RAG_MAX_CONTEXT_LENGTH = 1000`). -/
structure RagConfig where
  top_k : Nat
  score_threshold : ℚ
  max_context_length : Nat
deriving DecidableEq

/-- The default configuration from `config/config.py`. -/
def defaultConfig : RagConfig :=
  ⟨3, 7 / 10, 1000⟩

/-- Modelled from the spec: the Retrieval Pipeline policy (§4.4 steps 2–4):
embed the query; on embedding failure or an unavailable index fall through
to lexical search; otherwise run vector search, discard scores below the
threshold, and use the vector result only if at least one scored chunk
survives, falling back to lexical search otherwise.  The pipeline is total:
`EmbeddingFailure` and `IndexUnavailable` are recovered here, never
surfaced to the caller (§7). -/
def retrieveResult (provider : Text → Option (List ℚ)) (index : Option (List EmbeddedChunk))
    (chunks : List Chunk) (cfg : RagConfig) (q : Text) : RetrievalResult :=
  match index with
  | none => ⟨lexicalSearch q chunks cfg.top_k, .lexical⟩
  | some idx =>
    match provider q with
    | none => ⟨lexicalSearch q chunks cfg.top_k, .lexical⟩
    | some qv =>
      match (searchIndex idx qv cfg.top_k).filter
          (fun sc => decide (cfg.score_threshold ≤ sc.score)) with
      | [] => ⟨lexicalSearch q chunks cfg.top_k, .lexical⟩
      | sc :: rest => ⟨sc :: rest, .vector⟩

/-- Modelled from the spec: per-chunk attribution — the chunk text prefixed
by its section name (§4.5). -/
def formatChunk (sc : ScoredChunk) : Text :=
  '[' :: sc.chunk.sectionName ++ (']' :: ' ' :: sc.chunk.text)

/-- Modelled from the spec: Context Assembler recursion — append whole
formatted chunks in ranked order and stop at the first chunk whose addition
would exceed `maxLength` (§4.5). -/
def assembleFrom (maxLength : Nat) (acc : Text) : List ScoredChunk → Text
  | [] => acc
  | sc :: rest =>
      let piece := formatChunk sc
      if acc.length + piece.length ≤ maxLength then assembleFrom maxLength (acc ++ piece) rest
      else acc

/-- Modelled from the spec: the Context Assembler contract
`assemble(scoredChunks, maxLength)` (§4.5). -/
def assemble (scs : List ScoredChunk) (maxLength : Nat) : Text :=
  assembleFrom maxLength [] scs

/-! ### WebSocket client, embedded from `mc-master/src/services/voiceboxApi.js` -/

/-- The connection-related fields of the `VoiceBoxAPI` object
(`voiceboxApi.js` constructor). -/
structure ApiConn where
  connected : Bool
  reconnectAttempts : Nat
  maxReconnectAttempts : Nat
deriving DecidableEq

/-- The freshly constructed `VoiceBoxAPI` object: not connected,
`reconnectAttempts = 0`, `maxReconnectAttempts = 5`. -/
def initApi : ApiConn :=
  ⟨false, 0, 5⟩

/-- The observable outcome of one `attemptReconnect` call: the updated
object state, whether a reconnection was scheduled (`setTimeout` around
`connect`), and whether the `reconnect_failed` event was emitted. -/
structure ReconnectStep where
  state : ApiConn
  scheduledReconnect : Bool
  emittedReconnectFailed : Bool
deriving DecidableEq

/-- `VoiceBoxAPI.attemptReconnect` (`voiceboxApi.js` lines 66–80): if
`reconnectAttempts < maxReconnectAttempts`, increment the counter and
schedule a reconnection; otherwise emit `reconnect_failed` and schedule
nothing. -/
def attemptReconnect (s : ApiConn) : ReconnectStep :=
  if s.reconnectAttempts < s.maxReconnectAttempts then
    ⟨{ s with reconnectAttempts := s.reconnectAttempts + 1 }, true, false⟩
  else
    ⟨s, false, true⟩

/-- The `ws.onclose` handler (`voiceboxApi.js` lines 50–55): clear
`connected`, then run `attemptReconnect`. -/
def onClose (s : ApiConn) : ReconnectStep :=
  attemptReconnect { s with connected := false }

/-- The `ws.onopen` handler (`voiceboxApi.js` lines 27–33): set `connected`
and reset `reconnectAttempts` to 0. -/
def onOpen (s : ApiConn) : ApiConn :=
  { s with connected := true, reconnectAttempts := 0 }

/-- `n` consecutive close events, each of which triggers the `onclose`
handler (a failed automatic reconnection attempt fires `onerror` then
`onclose` again, so consecutive failures iterate this step). -/
def closeN : Nat → ApiConn → ApiConn
  | 0, s => s
  | n + 1, s => closeN n (onClose s).state

/-- A message sent over the WebSocket, with its JSON `type` field and the
optional payload fields used by `voiceboxApi.js`. -/
structure WsMessage where
  type : String
  text : Option String := none
  audio : Option String := none
deriving DecidableEq

/-- `VoiceBoxAPI.sendText` (`voiceboxApi.js` lines 113–124): throws
`Error('Not connected to server')` when not connected, otherwise sends
exactly one JSON message of type `text_input`. -/
def sendText (connected : Bool) (txt : String) : Except String (List WsMessage) :=
  if connected then Except.ok [{ type := "text_input", text := some txt }]
  else Except.error ("Not connected to server")

/-- `VoiceBoxAPI.sendAudio` (`voiceboxApi.js` lines 195–206): throws
`Error('Not connected to server')` when not connected, otherwise sends
exactly one JSON message of type `audio_input`. -/
def sendAudio (connected : Bool) (aud : String) : Except String (List WsMessage) :=
  if connected then Except.ok [{ type := "audio_input", audio := some aud }]
  else Except.error ("Not connected to server")

/-- `VoiceBoxAPI.getStatus` (`voiceboxApi.js` lines 211–221): throws
`Error('Not connected to server')` when not connected, otherwise sends
exactly one JSON message of type `get_status`. -/
def getStatus (connected : Bool) : Except String (List WsMessage) :=
  if connected then Except.ok [{ type := "get_status" }]
  else Except.error ("Not connected to server")

/-! ### Avatar state handling, embedded from `mc-master/src/App.jsx` -/

/-- The avatar states of `App.jsx` (`'idle' | 'speaking' | 'listening'`). -/
inductive AvatarState
  | idle
  | listening
  | speaking
deriving DecidableEq

/-- The `App.jsx` state touched by the playback logic: `avatarState` and
the `isPlayingAudioRef` ref. -/
structure AppView where
  avatarState : AvatarState
  isPlayingAudio : Bool
deriving DecidableEq

/-- The `state_change` listener (`App.jsx` lines 38–47): an `idle` state
change is ignored while audio is playing; any other state change is
applied. -/
def onStateChange (v : AppView) (st : AvatarState) : AppView :=
  if st = AvatarState.idle ∧ v.isPlayingAudio = true then v
  else { v with avatarState := st }

/-- The start of audio playback in the `response` listener (`App.jsx`
lines 92–95): set `isPlayingAudioRef` and enter the `speaking` state. -/
def startPlayback (_v : AppView) : AppView :=
  ⟨AvatarState.speaking, true⟩

/-- The end of audio playback in the `response` listener (`App.jsx`
lines 99–101 on resolve, 106–108 on reject): in both cases clear
`isPlayingAudioRef` and enter the `idle` state. -/
def finishPlayback (_v : AppView) (_resolved : Bool) : AppView :=
  ⟨AvatarState.idle, false⟩

/-- The ranking order required of a retrieval result: non-increasing
scores, with equal scores in ascending chunk-id order. -/
def rankedOrder (a b : ScoredChunk) : Prop :=
  b.score ≤ a.score ∧ (a.score = b.score → a.chunk.id ≤ b.chunk.id)

/-! ## Theorems -/

theorem onClose_flags (s : ApiConn) :
    (onClose s).scheduledReconnect = decide (s.reconnectAttempts < s.maxReconnectAttempts) ∧
    (onClose s).emittedReconnectFailed =
      decide (s.maxReconnectAttempts ≤ s.reconnectAttempts) := by
  by_cases h : s.reconnectAttempts < s.maxReconnectAttempts
  · simp [onClose, attemptReconnect, h, Nat.not_le.mpr h]
  · simp [onClose, attemptReconnect, h, Nat.le_of_not_lt h]

theorem closeN_attempts (n : Nat) : ∀ s : ApiConn, s.maxReconnectAttempts = 5 →
    s.reconnectAttempts ≤ 5 →
    (closeN n s).reconnectAttempts = min (s.reconnectAttempts + n) 5 ∧
    (closeN n s).maxReconnectAttempts = 5 := by
  induction n with
  | zero =>
    intro s hm ha
    constructor
    · simp only [closeN]; omega
    · simpa only [closeN] using hm
  | succ n ih =>
    intro s hm ha
    have ha' : (onClose s).state.reconnectAttempts =
        if s.reconnectAttempts < s.maxReconnectAttempts then s.reconnectAttempts + 1
        else s.reconnectAttempts := by
      by_cases h : s.reconnectAttempts < s.maxReconnectAttempts <;>
        simp [onClose, attemptReconnect, h]
    have hm' : (onClose s).state.maxReconnectAttempts = s.maxReconnectAttempts := by
      by_cases h : s.reconnectAttempts < s.maxReconnectAttempts <;>
        simp [onClose, attemptReconnect, h]
    obtain ⟨h1, h2⟩ := ih (onClose s).state (by rw [hm', hm])
      (by rw [ha', hm]; split <;> omega)
    refine ⟨?_, by rwa [closeN]⟩
    rw [closeN, h1, ha', hm]
    split <;> omega

/-- C8: after consecutive unsolicited closes starting from a fresh client,
`reconnectAttempts` counts up to at most 5; the close that finds the
counter below 5 schedules a reconnect and increments, the close that finds
it at 5 emits `reconnect_failed` and schedules nothing (so after 5 failed
attempts no further reconnect is ever scheduled); a successful open resets
the counter to 0. -/
theorem reconnect_bounded (n : Nat) :
    (closeN n initApi).reconnectAttempts = min n 5 ∧
    (onClose (closeN n initApi)).scheduledReconnect = decide (n < 5) ∧
    (onClose (closeN n initApi)).emittedReconnectFailed = decide (5 ≤ n) ∧
    ∀ s : ApiConn, (onOpen s).reconnectAttempts = 0 ∧ (onOpen s).connected = true := by
  obtain ⟨h1, h2⟩ := closeN_attempts n initApi rfl (by simp [initApi])
  have h1' : (closeN n initApi).reconnectAttempts = min n 5 := by
    simpa [initApi] using h1
  refine ⟨h1', ?_, ?_, fun s => ⟨rfl, rfl⟩⟩
  · rw [(onClose_flags _).1, h1', h2, decide_eq_decide]
    omega
  · rw [(onClose_flags _).2, h1', h2, decide_eq_decide]
    omega

theorem foldl_onStateChange_idle : ∀ (evts : List AvatarState) (w : AppView),
    w.isPlayingAudio = true → (∀ e ∈ evts, e = AvatarState.idle) →
    List.foldl onStateChange w evts = w := by
  intro evts
  induction evts with
  | nil => intro w _ _; rfl
  | cons e rest ih =>
    intro w hw hall
    have he : e = AvatarState.idle := hall e (by simp)
    have hstep : onStateChange w e = w := by
      simp [onStateChange, he, hw]
    rw [List.foldl_cons, hstep]
    exact ih w hw fun x hx => hall x (by simp [hx])

/-- C9: while `isPlayingAudioRef` is set, incoming `state_change` events
carrying `idle` are ignored, so the avatar stays in the `speaking` state
through the whole playback; only the end of playback — resolved or
rejected — sets the avatar to `idle`, clearing `isPlayingAudioRef` in both
cases. -/
theorem playback_ignores_idle (v : AppView) (evts : List AvatarState)
    (h : ∀ e ∈ evts, e = AvatarState.idle) :
    List.foldl onStateChange (startPlayback v) evts = startPlayback v ∧
    (startPlayback v).avatarState = AvatarState.speaking ∧
    (startPlayback v).isPlayingAudio = true ∧
    ∀ r : Bool, (finishPlayback v r).avatarState = AvatarState.idle ∧
      (finishPlayback v r).isPlayingAudio = false :=
  ⟨foldl_onStateChange_idle evts (startPlayback v) rfl h, rfl, rfl, fun _ => ⟨rfl, rfl⟩⟩

theorem playback_ignores_idle_witness :
    List.foldl onStateChange (startPlayback ⟨AvatarState.idle, false⟩)
        [AvatarState.idle, AvatarState.idle] = startPlayback ⟨AvatarState.idle, false⟩ ∧
    (startPlayback ⟨AvatarState.idle, false⟩).avatarState = AvatarState.speaking :=
  ⟨(playback_ignores_idle ⟨AvatarState.idle, false⟩ [AvatarState.idle, AvatarState.idle]
      (by decide)).1,
   (playback_ignores_idle ⟨AvatarState.idle, false⟩ [AvatarState.idle, AvatarState.idle]
      (by decide)).2.1⟩

/-- C10: each of `sendText`, `sendAudio` and `getStatus` throws
`Error('Not connected to server')` and sends nothing when the client is not
connected, and otherwise sends exactly one message whose `type` field is
respectively `text_input`, `audio_input`, `get_status`. -/
theorem send_requires_connection (conn : Bool) (txt aud : String) :
    (conn = false →
      sendText conn txt = Except.error ("Not connected to server") ∧
      sendAudio conn aud = Except.error ("Not connected to server") ∧
      getStatus conn = Except.error ("Not connected to server")) ∧
    (conn = true →
      sendText conn txt = Except.ok [{ type := "text_input", text := some txt }] ∧
      sendAudio conn aud = Except.ok [{ type := "audio_input", audio := some aud }] ∧
      getStatus conn = Except.ok [{ type := "get_status" }]) := by
  constructor
  · rintro rfl
    exact ⟨rfl, rfl, rfl⟩
  · rintro rfl
    exact ⟨rfl, rfl, rfl⟩

theorem send_requires_connection_witness :
    sendText false "hi" = Except.error ("Not connected to server") ∧
    sendText true "hi" = Except.ok [{ type := "text_input", text := some ("hi") }] :=
  ⟨((send_requires_connection false "hi" "au").1 rfl).1,
   ((send_requires_connection true "hi" "au").2 rfl).1⟩

/-- C7: chunking and index build are pure functions of the document,
markers, parameters and provider, so two runs from the same inputs yield
identical chunk boundaries, ids, texts and stored vectors. -/
theorem idempotent_rebuild (doc : Text) (markers : List (Text × Nat)) (t ov dim : Nat)
    (provider : Text → Option (List ℚ)) :
    chunkDoc doc markers t ov = chunkDoc doc markers t ov ∧
    buildIndex provider dim (chunkDoc doc markers t ov) =
      buildIndex provider dim (chunkDoc doc markers t ov) :=
  ⟨rfl, rfl⟩

theorem assembleFrom_length (m : Nat) : ∀ (scs : List ScoredChunk) (acc : Text),
    acc.length ≤ m → (assembleFrom m acc scs).length ≤ m := by
  intro scs
  induction scs with
  | nil => intro acc h; exact h
  | cons sc rest ih =>
    intro acc h
    by_cases hfit : acc.length + (formatChunk sc).length ≤ m
    · rw [assembleFrom, if_pos hfit]
      exact ih (acc ++ formatChunk sc) (by simpa using hfit)
    · rw [assembleFrom, if_neg hfit]
      exact h

theorem assembleFrom_whole_chunks (m : Nat) : ∀ (scs : List ScoredChunk) (acc : Text),
    ∃ n, assembleFrom m acc scs = acc ++ ((scs.take n).map formatChunk).flatten ∧
      ∀ sc, (scs.drop n).head? = some sc →
        m < (assembleFrom m acc scs).length + (formatChunk sc).length := by
  intro scs
  induction scs with
  | nil =>
    intro acc
    exact ⟨0, by simp [assembleFrom], by simp⟩
  | cons sc rest ih =>
    intro acc
    by_cases hfit : acc.length + (formatChunk sc).length ≤ m
    · obtain ⟨n, heq, hstop⟩ := ih (acc ++ formatChunk sc)
      refine ⟨n + 1, ?_, ?_⟩
      · rw [assembleFrom, if_pos hfit, heq]
        simp
      · intro x hx
        rw [assembleFrom, if_pos hfit]
        exact hstop x (by simpa using hx)
    · refine ⟨0, by simp [assembleFrom, if_neg hfit], ?_⟩
      intro x hx
      simp only [List.drop_zero, List.head?_cons, Option.some_inj] at hx
      rw [assembleFrom, if_neg hfit, ← hx]
      omega

/-- C4: the assembled context never exceeds `maxLength`; it is the
concatenation, in ranked order, of the whole formatted chunks of some
prefix of the input — assembly stops before the first chunk whose addition
would exceed the bound, never truncating a chunk mid-text — and an empty
input yields an empty context. -/
theorem context_length_bound (scs : List ScoredChunk) (m : Nat) :
    (assemble scs m).length ≤ m ∧
    assemble ([] : List ScoredChunk) m = [] ∧
    ∃ n, assemble scs m = ((scs.take n).map formatChunk).flatten ∧
      ∀ sc, (scs.drop n).head? = some sc →
        m < (assemble scs m).length + (formatChunk sc).length := by
  refine ⟨assembleFrom_length m scs [] (by simp), rfl, ?_⟩
  obtain ⟨n, heq, hstop⟩ := assembleFrom_whole_chunks m scs []
  exact ⟨n, by simpa [assemble] using heq, by simpa [assemble] using hstop⟩

theorem context_length_bound_witness :
    (assemble [⟨⟨0, ['h', 'i'], ['S'], 0, 2⟩, 1⟩] 20).length ≤ 20 ∧
    assemble ([] : List ScoredChunk) 20 = [] :=
  ⟨(context_length_bound [⟨⟨0, ['h', 'i'], ['S'], 0, 2⟩, 1⟩] 20).1,
   (context_length_bound [⟨⟨0, ['h', 'i'], ['S'], 0, 2⟩, 1⟩] 20).2.1⟩

/-- C2: a vector-index search returns at most `k` results, sorted
non-increasing by score with equal scores in ascending chunk-id order, and
every returned score is the inner product of the query vector with the
stored vector of the returned chunk. -/
theorem search_contract (idx : List EmbeddedChunk) (qv : List ℚ) (k : Nat) :
    (searchIndex idx qv k).length ≤ k ∧
    List.Sorted rankedOrder (searchIndex idx qv k) ∧
    ∀ sc ∈ searchIndex idx qv k, ∃ ec ∈ idx, sc.chunk = ec.chunk ∧ sc.score = dot qv ec.vector := by
  refine ⟨?_, ?_, ?_⟩
  · exact List.length_take_le k _
  · have hs := List.sorted_insertionSort scoreOrder
      (idx.map fun ec => ScoredChunk.mk ec.chunk (dot qv ec.vector))
    have hs' : List.Sorted rankedOrder
        (List.insertionSort scoreOrder
          (idx.map fun ec => ScoredChunk.mk ec.chunk (dot qv ec.vector))) := by
      refine hs.imp ?_
      intro a b h
      rcases h with h | ⟨h, h'⟩
      · exact ⟨le_of_lt h, fun he => absurd (he ▸ h) (lt_irrefl _)⟩
      · exact ⟨le_of_eq h, fun _ => h'⟩
    exact List.Pairwise.sublist (List.take_sublist k _) hs'
  · intro sc hsc
    have h1 : sc ∈ List.insertionSort scoreOrder
        (idx.map fun ec => ScoredChunk.mk ec.chunk (dot qv ec.vector)) :=
      List.mem_of_mem_take hsc
    have h2 := (List.perm_insertionSort scoreOrder
      (idx.map fun ec => ScoredChunk.mk ec.chunk (dot qv ec.vector))).subset h1
    rcases List.mem_map.mp h2 with ⟨ec, hec, heq⟩
    exact ⟨ec, hec, by rw [← heq], by rw [← heq]⟩

theorem search_contract_witness :
    ((⟨⟨0, ['a'], [], 0, 1⟩, 1⟩ : ScoredChunk) ∈
      searchIndex [⟨⟨0, ['a'], [], 0, 1⟩, [1, 0]⟩, ⟨⟨1, ['b'], [], 1, 2⟩, [0, 1]⟩] [1, 0] 1) ∧
    ∃ ec ∈ [(⟨⟨0, ['a'], [], 0, 1⟩, [1, 0]⟩ : EmbeddedChunk), ⟨⟨1, ['b'], [], 1, 2⟩, [0, 1]⟩],
      (⟨⟨0, ['a'], [], 0, 1⟩, 1⟩ : ScoredChunk).chunk = ec.chunk ∧
      (⟨⟨0, ['a'], [], 0, 1⟩, 1⟩ : ScoredChunk).score = dot [1, 0] ec.vector := by
  have hmem : (⟨⟨0, ['a'], [], 0, 1⟩, 1⟩ : ScoredChunk) ∈
      searchIndex [⟨⟨0, ['a'], [], 0, 1⟩, [1, 0]⟩, ⟨⟨1, ['b'], [], 1, 2⟩, [0, 1]⟩] [1, 0] 1 := by
    norm_num [searchIndex, dot, List.insertionSort, List.orderedInsert, scoreOrder]
  exact ⟨hmem,
    (search_contract [⟨⟨0, ['a'], [], 0, 1⟩, [1, 0]⟩, ⟨⟨1, ['b'], [], 1, 2⟩, [0, 1]⟩] [1, 0] 1).2.2
      _ hmem⟩

/-- C1: whenever the pipeline answers with the vector strategy, every
scored chunk in the final result has score at least the configured
`score_threshold` — chunks scoring below the threshold are discarded
before the result is used. -/
theorem threshold_filtering (provider : Text → Option (List ℚ))
    (index : Option (List EmbeddedChunk)) (chunks : List Chunk) (cfg : RagConfig) (q : Text)
    (h : (retrieveResult provider index chunks cfg q).strategy = Strategy.vector) :
    ∀ sc ∈ (retrieveResult provider index chunks cfg q).chunks,
      cfg.score_threshold ≤ sc.score := by
  intro sc hsc
  rcases hidx : index with _ | idx
  · rw [hidx] at h
    simp [retrieveResult] at h
  · rw [hidx] at h hsc
    rcases hq : provider q with _ | qv
    · simp [retrieveResult, hq] at h
    · rcases hflt : (searchIndex idx qv cfg.top_k).filter
          (fun sc => decide (cfg.score_threshold ≤ sc.score)) with _ | ⟨x, rest⟩
      · simp [retrieveResult, hq, hflt] at h
      · simp only [retrieveResult, hq, hflt] at hsc
        have hmem : sc ∈ (searchIndex idx qv cfg.top_k).filter
            (fun sc => decide (cfg.score_threshold ≤ sc.score)) := by
          rw [hflt]; exact hsc
        exact of_decide_eq_true (List.mem_filter.mp hmem).2

theorem threshold_filtering_witness :
    defaultConfig.score_threshold ≤
      (ScoredChunk.mk ⟨0, ['a'], [], 0, 1⟩ 1).score := by
  have h : (retrieveResult (fun _ => some [1, 0]) (some [⟨⟨0, ['a'], [], 0, 1⟩, [1, 0]⟩])
      [⟨0, ['a'], [], 0, 1⟩] defaultConfig ['a']).strategy = Strategy.vector := by
    norm_num [retrieveResult, searchIndex, dot, List.insertionSort, List.orderedInsert,
      defaultConfig]
  have hmem : (ScoredChunk.mk ⟨0, ['a'], [], 0, 1⟩ 1) ∈
      (retrieveResult (fun _ => some [1, 0]) (some [⟨⟨0, ['a'], [], 0, 1⟩, [1, 0]⟩])
        [⟨0, ['a'], [], 0, 1⟩] defaultConfig ['a']).chunks := by
    norm_num [retrieveResult, searchIndex, dot, List.insertionSort, List.orderedInsert,
      defaultConfig]
  exact threshold_filtering (fun _ => some [1, 0]) (some [⟨⟨0, ['a'], [], 0, 1⟩, [1, 0]⟩])
    [⟨0, ['a'], [], 0, 1⟩] defaultConfig ['a'] h _ hmem

/-- C3: whenever query embedding fails, the index is unavailable, or every
vector-search score is below the threshold, the pipeline returns exactly
the lexical matcher's (possibly empty) result with the `lexical` strategy
flag; `retrieveResult` is total, so `EmbeddingFailure` and
`IndexUnavailable` are never surfaced to the caller. -/
theorem fallback_activation (provider : Text → Option (List ℚ))
    (index : Option (List EmbeddedChunk)) (chunks : List Chunk) (cfg : RagConfig) (q : Text)
    (h : ∀ idx qv, index = some idx → provider q = some qv →
      ∀ sc ∈ searchIndex idx qv cfg.top_k, sc.score < cfg.score_threshold) :
    retrieveResult provider index chunks cfg q =
      ⟨lexicalSearch q chunks cfg.top_k, Strategy.lexical⟩ := by
  rcases hidx : index with _ | idx
  · simp [retrieveResult, hidx]
  · rcases hq : provider q with _ | qv
    · simp [retrieveResult, hidx, hq]
    · have hall := h idx qv hidx hq
      have hflt : (searchIndex idx qv cfg.top_k).filter
          (fun sc => decide (cfg.score_threshold ≤ sc.score)) = [] := by
        refine List.filter_eq_nil_iff.mpr ?_
        intro sc hsc
        simpa using not_le.mpr (hall sc hsc)
      simp [retrieveResult, hidx, hq, hflt]

theorem fallback_activation_witness :
    retrieveResult (fun _ => some [0, 1]) (some [⟨⟨0, ['a'], [], 0, 1⟩, [1, 0]⟩])
        [⟨0, ['a'], [], 0, 1⟩] defaultConfig ['z'] =
      ⟨lexicalSearch ['z'] [⟨0, ['a'], [], 0, 1⟩] defaultConfig.top_k, Strategy.lexical⟩ := by
  refine fallback_activation (fun _ => some [0, 1]) (some [⟨⟨0, ['a'], [], 0, 1⟩, [1, 0]⟩])
    [⟨0, ['a'], [], 0, 1⟩] defaultConfig ['z'] ?_
  intro idx qv hidx hqv sc hsc
  rw [Option.some_inj.mp hidx.symm] at hsc
  rw [← Option.some_inj.mp hqv] at hsc
  simp [searchIndex, dot, defaultConfig, List.insertionSort, List.orderedInsert] at hsc
  rw [hsc]
  norm_num [defaultConfig]

theorem splitSentencesAux_flatten : ∀ (cs acc : Text),
    (splitSentencesAux cs acc).flatten = acc.reverse ++ cs := by
  intro cs
  induction cs with
  | nil =>
    intro acc
    by_cases he : acc.isEmpty
    · rw [splitSentencesAux, if_pos he]
      simp [List.isEmpty_iff.mp he]
    · rw [splitSentencesAux, if_neg he]
      simp
  | cons c cs ih =>
    intro acc
    by_cases hend : isSentenceEnd c
    · rw [splitSentencesAux, if_pos hend, List.flatten_cons, ih]
      simp
    · rw [splitSentencesAux, if_neg hend, ih]
      simp

theorem splitSentences_flatten (x : Text) : (splitSentences x).flatten = x := by
  rw [splitSentences, splitSentencesAux_flatten]
  simp

theorem takeLast_le_length (n : Nat) (l : Text) : (takeLast n l).length ≤ l.length := by
  rw [takeLast, List.length_drop]
  omega

theorem lastEnd_chunkSection (t ov : Nat) (name : Text) :
    ∀ (ss : List Text) (acc : Text) (aStart pos : Nat),
    lastEnd pos (chunkSection t ov name ss acc aStart) =
      if acc.length + ss.flatten.length = 0 then pos
      else aStart + acc.length + ss.flatten.length := by
  intro ss
  induction ss with
  | nil =>
    intro acc aStart pos
    by_cases he : acc.isEmpty
    · rw [chunkSection, if_pos he]
      simp [lastEnd, List.isEmpty_iff.mp he]
    · rw [chunkSection, if_neg he]
      have hlacc : acc.length ≠ 0 := by
        simpa [List.length_eq_zero] using List.isEmpty_iff.not.mp he
      simp only [lastEnd, List.flatten_nil, List.length_nil]
      split_ifs <;> omega
  | cons s ss ih =>
    intro ss_acc aStart pos
    by_cases he : ss_acc.isEmpty
    · rw [chunkSection, if_pos he, ih]
      have hacc : ss_acc = [] := List.isEmpty_iff.mp he
      subst hacc
      simp only [List.length_nil, List.flatten_cons, List.length_append]
      split_ifs <;> omega
    · have hlacc : ss_acc.length ≠ 0 := by
        simpa [List.length_eq_zero] using List.isEmpty_iff.not.mp he
      by_cases hfit : ss_acc.length + s.length ≤ t
      · rw [chunkSection, if_neg he, if_pos hfit, ih]
        simp only [List.length_append, List.flatten_cons]
        split_ifs <;> omega
      · rw [chunkSection, if_neg he, if_neg hfit]
        have hole := takeLast_le_length ov ss_acc
        by_cases hov : (takeLast ov ss_acc).length + s.length ≤ t
        · rw [if_pos hov]
          simp only [lastEnd]
          rw [ih]
          simp only [List.length_append, List.flatten_cons]
          split_ifs <;> omega
        · rw [if_neg hov]
          simp only [lastEnd]
          rw [ih]
          simp only [List.length_append, List.flatten_cons]
          split_ifs <;> omega

theorem coverFrom_append (doc : Text) :
    ∀ (l1 l2 : List Chunk) (pos : Nat),
    coverFrom doc pos (l1 ++ l2) =
      coverFrom doc pos l1 ++ coverFrom doc (lastEnd pos l1) l2 := by
  intro l1
  induction l1 with
  | nil => intro l2 pos; simp [coverFrom, lastEnd]
  | cons c l1 ih =>
    intro l2 pos
    simp only [List.cons_append, coverFrom, lastEnd, List.append_eq, ih, List.append_assoc]

theorem coverFrom_assignIds (doc : Text) :
    ∀ (cs : List Chunk) (n pos : Nat),
    coverFrom doc pos (assignIds n cs) = coverFrom doc pos cs := by
  intro cs
  induction cs with
  | nil => intro n pos; rfl
  | cons c cs ih =>
    intro n pos
    simp only [assignIds, coverFrom, spanChars, ih]

theorem coverFrom_chunkSection (doc : Text) (t ov : Nat) (name : Text) :
    ∀ (ss : List Text) (acc : Text) (aStart pos : Nat),
    acc ++ ss.flatten = (doc.drop aStart).take (acc.length + ss.flatten.length) →
    aStart + acc.length + ss.flatten.length ≤ doc.length →
    aStart ≤ pos → pos ≤ aStart + acc.length →
    coverFrom doc pos (chunkSection t ov name ss acc aStart) =
      acc.drop (pos - aStart) ++ ss.flatten := by
  intro ss
  induction ss with
  | nil =>
    intro acc aStart pos halign hrange hp1 hp2
    simp only [List.flatten_nil, List.append_nil, List.length_nil, Nat.add_zero] at halign hrange ⊢
    by_cases he : acc.isEmpty
    · rw [chunkSection, if_pos he]
      simp [coverFrom, List.isEmpty_iff.mp he]
    · rw [chunkSection, if_neg he]
      simp only [coverFrom, List.append_nil]
      have hspan : spanChars doc ⟨0, acc, name, aStart, aStart + acc.length⟩ = acc := by
        simp only [spanChars, Nat.add_sub_cancel_left]
        exact halign.symm
      rw [hspan]
  | cons s ss ih =>
    intro acc aStart pos halign hrange hp1 hp2
    simp only [List.flatten_cons, List.length_append] at halign hrange ⊢
    by_cases he : acc.isEmpty
    · have hacc : acc = [] := List.isEmpty_iff.mp he
      subst hacc
      have hpos : pos = aStart := Nat.le_antisymm (by simpa using hp2) hp1
      rw [chunkSection, if_pos he, hpos]
      rw [ih s aStart aStart (by simpa using halign)
        (by simp only [List.length_nil] at hrange; omega) le_rfl (by omega)]
      simp
    · -- acc is nonempty
      have hacc_eq : acc = (doc.drop aStart).take acc.length := by
        have h1 := congrArg (List.take acc.length) halign
        rw [List.take_left, List.take_take, Nat.min_eq_left (Nat.le_add_right _ _)] at h1
        exact h1
      have htail : s ++ ss.flatten =
          (doc.drop (aStart + acc.length)).take (s.length + ss.flatten.length) := by
        have h2 := congrArg (List.drop acc.length) halign
        rw [List.drop_left, List.drop_take, List.drop_drop, Nat.add_sub_cancel_left] at h2
        exact h2
      have hspan : spanChars doc ⟨0, acc, name, aStart, aStart + acc.length⟩ = acc := by
        simp only [spanChars, Nat.add_sub_cancel_left]
        exact hacc_eq.symm
      by_cases hfit : acc.length + s.length ≤ t
      · rw [chunkSection, if_neg he, if_pos hfit]
        have hal2 : (acc ++ s) ++ ss.flatten =
            (doc.drop aStart).take ((acc ++ s).length + ss.flatten.length) := by
          rw [List.append_assoc, List.length_append,
            show acc.length + s.length + ss.flatten.length =
              acc.length + (s.length + ss.flatten.length) from by omega]
          exact halign
        rw [ih (acc ++ s) aStart pos hal2
          (by simp only [List.length_append]; omega) hp1
          (by simp only [List.length_append]; omega)]
        rw [List.drop_append_of_le_length (by omega), List.append_assoc]
      · rw [chunkSection, if_neg he, if_neg hfit]
        simp only [takeLast, List.length_drop, coverFrom, hspan]
        by_cases hov : acc.length - (acc.length - ov) + s.length ≤ t
        · rw [if_pos hov]
          have h1 := congrArg (List.drop (acc.length - ov)) hacc_eq
          rw [List.drop_take, List.drop_drop] at h1
          have hdd : (doc.drop (aStart + (acc.length - ov))).drop (acc.length - (acc.length - ov)) =
              doc.drop (aStart + acc.length) := by
            rw [List.drop_drop]
            congr 1
            omega
          have hal2 : (acc.drop (acc.length - ov) ++ s) ++ ss.flatten =
              (doc.drop (aStart + (acc.length - ov))).take
                ((acc.drop (acc.length - ov) ++ s).length + ss.flatten.length) := by
            simp only [List.length_append, List.length_drop]
            rw [List.append_assoc,
              show acc.length - (acc.length - ov) + s.length + ss.flatten.length =
                acc.length - (acc.length - ov) + (s.length + ss.flatten.length) from by omega,
              List.take_add, hdd, ← htail, ← h1]
          rw [show aStart + acc.length - (acc.length - (acc.length - ov)) =
            aStart + (acc.length - ov) from by omega]
          rw [ih (acc.drop (acc.length - ov) ++ s) (aStart + (acc.length - ov))
            (aStart + acc.length) hal2
            (by simp only [List.length_append, List.length_drop]; omega)
            (by omega)
            (by simp only [List.length_append, List.length_drop]; omega)]
          rw [show aStart + acc.length - (aStart + (acc.length - ov)) =
            (acc.drop (acc.length - ov)).length from by simp only [List.length_drop]; omega]
          rw [List.drop_left]
        · rw [if_neg hov]
          rw [ih s (aStart + acc.length) (aStart + acc.length) htail
            (by omega) le_rfl (by omega)]
          simp [List.append_assoc]

theorem coverFrom_sections (doc : Text) (t ov : Nat) :
    ∀ (markers : List (Text × Nat)) (pos : Nat) (curName : Text),
    (∀ m ∈ markers, m.2 ≤ doc.length) →
    List.Chain (fun a b : Text × Nat => a.2 ≤ b.2) (curName, pos) markers →
    pos ≤ doc.length →
    coverFrom doc pos
      (((sectionsFrom doc pos curName markers).map
        (fun sec => chunkSection t ov sec.1 (splitSentences sec.2.2) [] sec.2.1)).flatten) =
      doc.drop pos := by
  intro markers
  induction markers with
  | nil =>
    intro pos curName _ _ hpos
    rw [sectionsFrom]
    simp only [List.map_cons, List.map_nil, List.flatten_cons, List.flatten_nil, List.append_nil]
    have h1 : ([] : Text) ++ (splitSentences (doc.drop pos)).flatten =
        (doc.drop pos).take (([] : Text).length + (splitSentences (doc.drop pos)).flatten.length) := by
      simp only [List.nil_append, List.length_nil, Nat.zero_add]
      rw [splitSentences_flatten]
      exact (List.take_length _).symm
    have h2 : pos + ([] : Text).length + (splitSentences (doc.drop pos)).flatten.length ≤
        doc.length := by
      simp only [List.length_nil, Nat.add_zero]
      rw [splitSentences_flatten, List.length_drop]
      omega
    rw [coverFrom_chunkSection doc t ov curName (splitSentences (doc.drop pos)) [] pos pos
      h1 h2 le_rfl (by simp)]
    rw [splitSentences_flatten]
    simp
  | cons mhead rest ih =>
    rcases mhead with ⟨mname, moff⟩
    intro pos curName hle hchain hpos
    have hoff_le : moff ≤ doc.length := hle _ (List.mem_cons_self _ _)
    have hpos_off : pos ≤ moff := by
      cases hchain with
      | cons h _ => exact h
    have hchain' : List.Chain (fun a b : Text × Nat => a.2 ≤ b.2) (mname, moff) rest := by
      cases hchain with
      | cons _ h => exact h
    rw [sectionsFrom]
    simp only [List.map_cons, List.flatten_cons]
    rw [coverFrom_append]
    have htext : (splitSentences ((doc.drop pos).take (moff - pos))).flatten
        = (doc.drop pos).take (moff - pos) := splitSentences_flatten _
    have htlen : ((doc.drop pos).take (moff - pos)).length = moff - pos := by
      rw [List.length_take, List.length_drop]
      omega
    have h1 : ([] : Text) ++ (splitSentences ((doc.drop pos).take (moff - pos))).flatten =
        (doc.drop pos).take (([] : Text).length +
          (splitSentences ((doc.drop pos).take (moff - pos))).flatten.length) := by
      simp only [List.nil_append, List.length_nil, Nat.zero_add]
      rw [htext, htlen]
    have h2 : pos + ([] : Text).length +
        (splitSentences ((doc.drop pos).take (moff - pos))).flatten.length ≤ doc.length := by
      simp only [List.length_nil, Nat.add_zero]
      rw [htext, htlen]
      omega
    have hsec1 : coverFrom doc pos (chunkSection t ov curName
        (splitSentences ((doc.drop pos).take (moff - pos))) [] pos)
        = (doc.drop pos).take (moff - pos) := by
      rw [coverFrom_chunkSection doc t ov curName
        (splitSentences ((doc.drop pos).take (moff - pos))) [] pos pos h1 h2 le_rfl (by simp)]
      rw [htext]
      simp
    have hlast : lastEnd pos (chunkSection t ov curName
        (splitSentences ((doc.drop pos).take (moff - pos))) [] pos) = moff := by
      rw [lastEnd_chunkSection]
      simp only [List.length_nil, Nat.zero_add, Nat.add_zero]
      rw [htext, htlen]
      split_ifs <;> omega
    rw [hsec1, hlast, ih moff mname (fun m hm => hle m (List.mem_cons_of_mem _ hm)) hchain'
      hoff_le]
    have hdd : (doc.drop pos).drop (moff - pos) = doc.drop moff := by
      rw [List.drop_drop]
      congr 1
      omega
    conv_rhs => rw [← List.take_append_drop (moff - pos) (doc.drop pos)]
    rw [hdd]

/-- C5: for any document and well-formed section markers (in-range,
non-decreasing offsets), concatenating the `[startOffset, endOffset)` spans
of all chunks produced by the Chunker, with each chunk's duplicated overlap
region dropped, reconstructs the document exactly — no character is lost or
duplicated outside the configured overlap. -/
theorem chunk_coverage (doc : Text) (markers : List (Text × Nat)) (t ov : Nat)
    (hle : ∀ m ∈ markers, m.2 ≤ doc.length)
    (hchain : List.Chain' (fun a b : Text × Nat => a.2 ≤ b.2) markers) :
    coverFrom doc 0 (chunkDoc doc markers t ov) = doc := by
  have hchain0 : List.Chain (fun a b : Text × Nat => a.2 ≤ b.2) (([], 0) : Text × Nat) markers := by
    cases markers with
    | nil => exact List.Chain.nil
    | cons m rest => exact List.Chain.cons (Nat.zero_le _) hchain
  rw [chunkDoc, coverFrom_assignIds, sections]
  rw [coverFrom_sections doc t ov markers 0 [] hle hchain0 (Nat.zero_le _)]
  simp

theorem chunk_coverage_witness :
    (∀ m ∈ [((['S'] : Text), 4)], m.2 ≤ ("Ab. Cd ef! Gh.".toList : Text).length) ∧
    coverFrom "Ab. Cd ef! Gh.".toList 0
      (chunkDoc "Ab. Cd ef! Gh.".toList [((['S'] : Text), 4)] 6 2) = "Ab. Cd ef! Gh.".toList := by
  refine ⟨by decide, ?_⟩
  exact chunk_coverage "Ab. Cd ef! Gh.".toList [((['S'] : Text), 4)] 6 2 (by decide)
    (List.chain'_singleton _)

theorem chunkSection_inv (t ov : Nat) (name : Text) (S : List Text) :
    ∀ (ss : List Text) (acc : Text) (aStart : Nat),
    (∀ s ∈ ss, s ∈ S) →
    (acc = [] ∨ acc.length ≤ t ∨ (acc ∈ S ∧ t < acc.length)) →
    ∀ c ∈ chunkSection t ov name ss acc aStart,
      c.endOffset = c.startOffset + c.text.length ∧ c.text ≠ [] ∧
      (c.text.length ≤ t ∨ (c.text ∈ S ∧ t < c.text.length)) := by
  intro ss
  induction ss with
  | nil =>
    intro acc aStart _ hacc c hc
    by_cases he : acc.isEmpty
    · rw [chunkSection, if_pos he] at hc
      simp at hc
    · rw [chunkSection, if_neg he] at hc
      have hne : acc ≠ [] := by simpa [List.isEmpty_iff] using he
      rcases List.mem_singleton.mp hc with rfl
      refine ⟨rfl, hne, ?_⟩
      rcases hacc with h | h | h
      · exact absurd h hne
      · exact Or.inl h
      · exact Or.inr h
  | cons s ss ih =>
    intro acc aStart hss hacc c hc
    by_cases he : acc.isEmpty
    · rw [chunkSection, if_pos he] at hc
      refine ih s aStart (fun x hx => hss x (List.mem_cons_of_mem _ hx)) ?_ c hc
      rcases Nat.le_total s.length t with h | h
      · exact Or.inr (Or.inl h)
      · rcases Nat.eq_or_lt_of_le h with h' | h'
        · exact Or.inr (Or.inl h'.ge)
        · exact Or.inr (Or.inr ⟨hss s (List.mem_cons_self _ _), h'⟩)
    · have hne : acc ≠ [] := by simpa [List.isEmpty_iff] using he
      by_cases hfit : acc.length + s.length ≤ t
      · rw [chunkSection, if_neg he, if_pos hfit] at hc
        refine ih (acc ++ s) aStart (fun x hx => hss x (List.mem_cons_of_mem _ hx)) ?_ c hc
        exact Or.inr (Or.inl (by simpa [List.length_append] using hfit))
      · rw [chunkSection, if_neg he, if_neg hfit] at hc
        rcases List.mem_cons.mp hc with rfl | hc'
        · refine ⟨rfl, hne, ?_⟩
          rcases hacc with h | h | h
          · exact absurd h hne
          · exact Or.inl h
          · exact Or.inr h
        · by_cases hov : (takeLast ov acc).length + s.length ≤ t
          · rw [if_pos hov] at hc'
            refine ih (takeLast ov acc ++ s) _
              (fun x hx => hss x (List.mem_cons_of_mem _ hx)) ?_ c hc'
            exact Or.inr (Or.inl (by simpa [List.length_append] using hov))
          · rw [if_neg hov] at hc'
            refine ih s _ (fun x hx => hss x (List.mem_cons_of_mem _ hx)) ?_ c hc'
            rcases Nat.le_total s.length t with h | h
            · exact Or.inr (Or.inl h)
            · rcases Nat.eq_or_lt_of_le h with h' | h'
              · exact Or.inr (Or.inl h'.ge)
              · exact Or.inr (Or.inr ⟨hss s (List.mem_cons_self _ _), h'⟩)

theorem mem_assignIds : ∀ (cs : List Chunk) (n : Nat) (c : Chunk), c ∈ assignIds n cs →
    ∃ c0 ∈ cs, c.text = c0.text ∧ c.sectionName = c0.sectionName ∧
      c.startOffset = c0.startOffset ∧ c.endOffset = c0.endOffset := by
  intro cs
  induction cs with
  | nil =>
    intro n c hc
    simp [assignIds] at hc
  | cons x xs ih =>
    intro n c hc
    rcases List.mem_cons.mp hc with rfl | hc'
    · exact ⟨x, List.mem_cons_self _ _, rfl, rfl, rfl, rfl⟩
    · rcases ih (n + 1) c hc' with ⟨c0, hc0, hprops⟩
      exact ⟨c0, List.mem_cons_of_mem _ hc0, hprops⟩

/-- C6: every chunk produced by the Chunker satisfies
`endOffset > startOffset`, and its text length is at most `targetSize`
unless the chunk is a single sentence longer than `targetSize`, in which
case the chunk text is exactly that sentence, unsplit. -/
theorem chunk_size_invariant (doc : Text) (markers : List (Text × Nat)) (t ov : Nat) :
    ∀ c ∈ chunkDoc doc markers t ov,
      c.startOffset < c.endOffset ∧
      (c.text.length ≤ t ∨
        (∃ sec ∈ sections doc markers, c.text ∈ splitSentences sec.2.2 ∧ t < c.text.length)) := by
  intro c hc
  rw [chunkDoc] at hc
  rcases mem_assignIds _ 0 c hc with ⟨c0, hc0, htext, _, hstart, hend⟩
  rcases List.mem_flatten.mp hc0 with ⟨l, hl, hc0l⟩
  rcases List.mem_map.mp hl with ⟨sec, hsec, rfl⟩
  have hinv := chunkSection_inv t ov sec.1 (splitSentences sec.2.2)
    (splitSentences sec.2.2) [] sec.2.1 (fun x hx => hx) (Or.inl rfl) c0 hc0l
  rcases hinv with ⟨hoff, hne, hsize⟩
  constructor
  · rw [hstart, hend, hoff]
    have : c0.text.length ≠ 0 := by
      simpa [List.length_eq_zero] using hne
    omega
  · rw [htext]
    rcases hsize with h | ⟨hmem, hlt⟩
    · exact Or.inl h
    · exact Or.inr ⟨sec, hsec, hmem, hlt⟩

theorem chunk_size_invariant_witness :
    ((⟨0, "Ab. ".toList, [], 0, 4⟩ : Chunk) ∈
      chunkDoc "Ab. Cd ef! Gh.".toList [((['S'] : Text), 4)] 6 2) ∧
    ((⟨0, "Ab. ".toList, [], 0, 4⟩ : Chunk).startOffset <
      (⟨0, "Ab. ".toList, [], 0, 4⟩ : Chunk).endOffset) := by
  have hm : ((⟨0, "Ab. ".toList, [], 0, 4⟩ : Chunk) ∈
      chunkDoc "Ab. Cd ef! Gh.".toList [((['S'] : Text), 4)] 6 2) := by decide
  exact ⟨hm, (chunk_size_invariant "Ab. Cd ef! Gh.".toList [((['S'] : Text), 4)] 6 2 _ hm).1⟩

end VoiceBox

